import Mathlib

/-!
Verification of the placeholder-replacement tool
(src/scripts/replace_project_placeholders.py).

The development embeds the program shallowly:

* Python str.replace (leftmost, non-overlapping replacement of every
  occurrence) and str.count (leftmost, non-overlapping counting) are
  realized on List Char with an explicit fuel argument so that all
  recursion is structural and every definition evaluates by kernel
  reduction.
* The YAML configuration file is a tree (Yaml); the loader and the
  project-value extraction mirror load_cumulusci_config and
  get_project_values, including the distinction between a KeyError
  (turned into the missing-field ValueError) and a TypeError raised by
  subscripting a non-mapping value, which the local handler does not
  catch.
* The filesystem is a list of nodes carrying path, base name, a file/
  directory flag, text content and the outcome of I/O operations on
  them (read, write, rename).  Per-file exceptions are modelled by
  PerFileErr: UnicodeDecodeError, PermissionError, and any other
  OSError-like failure (for example ENOSPC); the source catches
  exactly the first two.  Write failures are modelled as happening at
  open time, before any data is written.
* main is the function run; it returns the process exit code, the
  final filesystem and the ordered trace of update/rename events.
-/

namespace PlaceholderTool

/-- Leftmost, non-overlapping replacement of every occurrence of pat by
rep, as performed by the Python method str.replace.  The extra Nat
argument is fuel making the recursion structural; replaceAll below
always supplies enough fuel.  (The source only ever replaces the two
fixed non-empty placeholder tokens, so the empty-pattern corner of the
Python method is irrelevant and the empty pattern is treated as
matching nowhere.) -/
def replaceAllF {α : Type} [DecidableEq α] (pat rep : List α) : Nat → List α → List α
  | _, [] => []
  | 0, l => l
  | fuel + 1, c :: s =>
    if pat <+: c :: s ∧ pat ≠ [] then
      rep ++ replaceAllF pat rep fuel (List.drop pat.length (c :: s))
    else
      c :: replaceAllF pat rep fuel s

/-- Python str.replace on lists: replace every leftmost, non-overlapping
occurrence of pat by rep. -/
def replaceAll {α : Type} [DecidableEq α] (pat rep s : List α) : List α :=
  replaceAllF pat rep s.length s

/-- Python str.count on lists: the number of leftmost, non-overlapping
occurrences of pat, with fuel for structural recursion. -/
def countOccsF {α : Type} [DecidableEq α] (pat : List α) : Nat → List α → Nat
  | _, [] => 0
  | 0, _ => 0
  | fuel + 1, c :: s =>
    if pat <+: c :: s ∧ pat ≠ [] then
      1 + countOccsF pat fuel (List.drop pat.length (c :: s))
    else
      countOccsF pat fuel s

/-- Python str.count on lists: the number of leftmost, non-overlapping
occurrences of pat in s. -/
def countOccs {α : Type} [DecidableEq α] (pat s : List α) : Nat :=
  countOccsF pat s.length s

/-- Separation of a replacement value rep from a token tok: rep does not
contain tok, rep is not a fragment of tok, no non-empty suffix of rep
starts tok and no non-empty prefix of rep ends tok.  Under these
conditions inserting rep can never create a new occurrence of tok, and
removing a disjoint pattern can never splice one together across an
inserted rep. -/
def SepFrom {α : Type} [DecidableEq α] (rep tok : List α) : Prop :=
  ¬ tok <:+: rep ∧ ¬ rep <:+: tok ∧
    (∀ q ∈ rep.tails, q = [] ∨ ¬ q <+: tok) ∧
    (∀ q ∈ rep.inits, q = [] ∨ ¬ q <:+ tok)

instance {α : Type} [DecidableEq α] (rep tok : List α) : Decidable (SepFrom rep tok) := by
  unfold SepFrom
  infer_instance

/-- The first placeholder token. -/
def NAME_TOK : List Char := "__PROJECT_NAME__".toList

/-- The second placeholder token. -/
def LABEL_TOK : List Char := "__PROJECT_LABEL__".toList

/-- The two-token substitution applied to file contents (and, with the
same composition, to file names): first every occurrence of
NAME_TOK is replaced by name, then every occurrence of LABEL_TOK by
label, mirroring the two content.replace calls of update_file_content. -/
def updateContent (content name label : List Char) : List Char :=
  replaceAll LABEL_TOK label (replaceAll NAME_TOK name content)

/-- A parsed YAML document, as far as this tool consumes it: a null
scalar (what yaml.safe_load yields for an empty file), a string scalar,
or a mapping from string keys to documents. -/
inductive Yaml where
  | null : Yaml
  | str : List Char → Yaml
  | map : List (String × Yaml) → Yaml

/-- Exceptions that subscripting a parsed YAML value can raise in
Python: KeyError when a mapping lacks the key, TypeError when the value
subscripted is not a mapping. -/
inductive PyErr where
  | keyError : PyErr
  | typeError : PyErr
  deriving DecidableEq

/-- Python subscript y[k] on a parsed YAML value. -/
def yamlGet (y : Yaml) (k : String) : Except PyErr Yaml :=
  match y with
  | .map es =>
    match es.lookup k with
    | some v => .ok v
    | none => .error .keyError
  | _ => .error .typeError

/-- A chain of subscripts y[k1][k2]...: the evaluation of one Python
expression such as config["project"]["package"]["name"]. -/
def chainGet (y : Yaml) : List String → Except PyErr Yaml
  | [] => .ok y
  | k :: ks =>
    match yamlGet y k with
    | .ok v => chainGet v ks
    | .error e => .error e

/-- Spec-side path lookup in a YAML tree, stated independently of the
exception machinery: the value reached by following nested mappings, if
every step goes through a mapping that has the key. -/
def lookupPath : Yaml → List String → Option Yaml
  | y, [] => some y
  | .map es, k :: ks =>
    match es.lookup k with
    | some v => lookupPath v ks
    | none => none
  | _, _ :: _ => none

/-- The state of the fixed-path configuration file cumulusci.yml:
absent, present but rejected by the YAML parser, or parsed to a
document. -/
inductive ConfigState where
  | missing : ConfigState
  | malformed : ConfigState
  | parsed : Yaml → ConfigState

/-- How a run of the configuration-loading phase ends when it does not
produce the two values: the file was not found, the YAML parser
rejected it, a required key was missing (the KeyError re-raised as the
missing-field ValueError), or a TypeError escaped get_project_values
because a value along the path is not a mapping.  All four are caught
by the broad handler in main and turn into exit status 1. -/
inductive LoadErr where
  | notFound : LoadErr
  | parseError : LoadErr
  | missingField : LoadErr
  | typeError : LoadErr
  deriving DecidableEq

/-- load_cumulusci_config: open and parse cumulusci.yml, re-raising a
FileNotFoundError and turning a yaml.YAMLError into a ValueError. -/
def load_cumulusci_config : ConfigState → Except LoadErr Yaml
  | .missing => .error .notFound
  | .malformed => .error .parseError
  | .parsed y => .ok y

/-- get_project_values: evaluate config["project"]["package"]["name"]
and config["project"]["package"]["name_managed"] in that order inside a
try block whose handler catches only KeyError (re-raised as the
missing-field ValueError); a TypeError propagates. -/
def get_project_values (y : Yaml) : Except LoadErr (Yaml × Yaml) :=
  match chainGet y ["project", "package", "name"] with
  | .error .keyError => .error .missingField
  | .error .typeError => .error .typeError
  | .ok n =>
    match chainGet y ["project", "package", "name_managed"] with
    | .error .keyError => .error .missingField
    | .error .typeError => .error .typeError
    | .ok m => .ok (n, m)

/-- The whole configuration-loading phase of main: load the file, then
extract the two values. -/
def loadValues (cfg : ConfigState) : Except LoadErr (Yaml × Yaml) :=
  match load_cumulusci_config cfg with
  | .error e => .error e
  | .ok y => get_project_values y

/-- Exceptions a per-file operation can raise: a UnicodeDecodeError, a
PermissionError, or any other OSError-like failure (a vanished file, a
full disk, ...).  The except clauses of the source catch exactly the
first two kinds. -/
inductive PerFileErr where
  | unicodeDecode : PerFileErr
  | permission : PerFileErr
  | other : PerFileErr
  deriving DecidableEq

/-- One filesystem entry, relative to the working directory: the
components of its parent directory, its base name, whether it is a
regular file (is_file) or a directory, its content, and the outcome of
the I/O operations the tool may attempt on it.  readErr none means a
text read succeeds and yields text; write and rename failures are
modelled as raised at open/rename time, before anything is altered. -/
structure Node where
  parent : List String
  name : List Char
  isFile : Bool
  text : List Char
  readErr : Option PerFileErr
  writeErr : Option PerFileErr
  renameErr : Bool
  deriving DecidableEq

/-- The observable actions of a run, in program order: a content
rewrite, the warning printed when a caught exception skips a rewrite, a
rename, and the warning printed when a rename fails. -/
inductive Event where
  | updated : List String → List Char → Event
  | warnUpdate : List String → List Char → Event
  | renamed : List String → List Char → List Char → Event
  | warnRename : List String → List Char → List Char → Event
  deriving DecidableEq

/-- Whether an event belongs to the content-update phase. -/
def Event.isUpd : Event → Bool
  | .updated _ _ => true
  | .warnUpdate _ _ => true
  | _ => false

/-- Whether an event belongs to the rename phase. -/
def Event.isRen : Event → Bool
  | .renamed _ _ _ => true
  | .warnRename _ _ _ => true
  | _ => false

/-- The two subdirectory names the tool searches. -/
def searchDirs : List String := ["force-app", "unpackaged"]

/-- A node lies under one of the searched subdirectories exactly when
the first component of its parent path is one of them (rglob of a
searched directory enumerates precisely those entries). -/
def underSearchB (n : Node) : Bool :=
  match n.parent.head? with
  | some d => searchDirs.contains d
  | none => false

/-- The content scan flags a node when the decoded text contains either
placeholder token literally. -/
def hasTokText (t : List Char) : Bool :=
  decide (NAME_TOK <:+: t) || decide (LABEL_TOK <:+: t)

/-- A node that find_files_with_placeholders puts into files_to_update:
a regular file under a searched directory whose text read succeeds and
contains a token. -/
def contentCandidate (n : Node) : Bool :=
  underSearchB n && n.isFile && (n.readErr == none) && hasTokText n.text

/-- A node that find_files_with_placeholder_names puts into
files_to_rename: a regular file under a searched directory whose base
name contains a token.  The content is never consulted. -/
def nameCandidate (n : Node) : Bool :=
  underSearchB n && n.isFile && hasTokText n.name

/-- find_files_with_placeholders: walk the searched directories, try to
read each regular file, skip it silently on UnicodeDecodeError or
PermissionError, and collect the paths whose text contains a token.
Any other exception raised by the read escapes the except clause and
aborts the scan (and with it the whole run, since main does not guard
this call). -/
def find_files_with_placeholders : List Node → Except PerFileErr (List (List String × List Char))
  | [] => .ok []
  | n :: rest =>
    if underSearchB n && n.isFile then
      match n.readErr with
      | some .other => .error .other
      | some _ => find_files_with_placeholders rest
      | none =>
        if hasTokText n.text then
          match find_files_with_placeholders rest with
          | .error e => .error e
          | .ok l => .ok ((n.parent, n.name) :: l)
        else find_files_with_placeholders rest
    else find_files_with_placeholders rest

/-- find_files_with_placeholder_names: walk the searched directories and
collect the paths of the regular files whose base name contains a
token; no file content is read, so this scan cannot raise. -/
def find_files_with_placeholder_names : List Node → List (List String × List Char)
  | [] => []
  | n :: rest =>
    if nameCandidate n then
      (n.parent, n.name) :: find_files_with_placeholder_names rest
    else find_files_with_placeholder_names rest

/-- update_file_content: re-read the file, apply the two replacements,
and write back only if the text changed.  UnicodeDecodeError and
PermissionError are caught, print a warning and report no change; any
other exception escapes (the Except error).  The Bool of the result is
the return value of the Python function. -/
def update_file_content (name label : List Char) (n : Node) :
    Except PerFileErr (Node × Bool × List Event) :=
  match n.readErr with
  | some .unicodeDecode => .ok (n, false, [.warnUpdate n.parent n.name])
  | some .permission => .ok (n, false, [.warnUpdate n.parent n.name])
  | some .other => .error .other
  | none =>
    let content := n.text
    let content2 := updateContent content name label
    if content2 = content then .ok (n, false, [])
    else
      match n.writeErr with
      | none => .ok ({ n with text := content2 }, true, [])
      | some .unicodeDecode => .ok (n, false, [.warnUpdate n.parent n.name])
      | some .permission => .ok (n, false, [.warnUpdate n.parent n.name])
      | some .other => .error .other

/-- rename_file: compute the new base name by the same two-token
substitution; if it differs, rename within the same parent directory.
An OSError from the rename is caught, prints a warning and leaves the
file untouched under its original name.  The Bool records whether the
returned path differs from the argument (the comparison main performs
on the returned path). -/
def rename_file (name label : List Char) (n : Node) : Node × Bool × List Event :=
  let newName := replaceAll LABEL_TOK label (replaceAll NAME_TOK name n.name)
  if newName = n.name then (n, false, [])
  else if n.renameErr then (n, false, [.warnRename n.parent n.name newName])
  else ({ n with name := newName }, true, [])

/-- The content-update loop of main: process the content candidates in
traversal order, accumulating the updated filesystem and the events.
If update_file_content raises (only possible through an uncaught
exception kind), the loop stops there: the offending file and all later
nodes keep their scanned state, and the error is returned.  Files that
are not content candidates pass through untouched. -/
def updateWalk (name label : List Char) : List Node → List Node × List Event × Option PerFileErr
  | [] => ([], [], none)
  | n :: rest =>
    if contentCandidate n then
      match update_file_content name label n with
      | .error e => (n :: rest, [], some e)
      | .ok (n2, ch, evs) =>
        let w := updateWalk name label rest
        (n2 :: w.1, evs ++ (if ch then [.updated n.parent n.name] else []) ++ w.2.1, w.2.2)
    else
      let w := updateWalk name label rest
      (n :: w.1, w.2.1, w.2.2)

/-- The rename loop of main: process the name candidates in traversal
order.  rename_file catches the OSError a failing rename raises, so
this loop always runs to completion. -/
def renameWalk (name label : List Char) : List Node → List Node × List Event
  | [] => ([], [])
  | n :: rest =>
    let w := renameWalk name label rest
    if nameCandidate n then
      let r := rename_file name label n
      (r.1 :: w.1, r.2.2 ++ (if r.2.1 then [.renamed n.parent n.name r.1.name] else []) ++ w.2)
    else
      (n :: w.1, w.2)

/-- main: load the configuration (any failure is caught by the broad
handler and returns exit status 1 with nothing touched), scan for
content and name candidates (an uncaught read error aborts the process
with a traceback, exit status 1, before anything is modified), update
all contents, then rename.  An uncaught per-file exception during the
update loop aborts the process with whatever updates already happened;
otherwise main falls through and the process exits with status 0.
When the two configured values are not both strings, every call of
str.replace on a candidate raises a TypeError that nothing catches, so
the run aborts at the first candidate with nothing modified, and
completes untouched if there is no candidate at all.  The result is
the exit status, the final filesystem and the event trace. -/
def run (cfg : ConfigState) (fs : List Node) : Nat × List Node × List Event :=
  match loadValues cfg with
  | .error _ => (1, fs, [])
  | .ok (ny, ly) =>
    match find_files_with_placeholders fs with
    | .error _ => (1, fs, [])
    | .ok _ =>
      match ny, ly with
      | .str name, .str label =>
        let w := updateWalk name label fs
        match w.2.2 with
        | some _ => (1, w.1, w.2.1)
        | none =>
          let r := renameWalk name label w.1
          (0, r.1, w.2.1 ++ r.2)
      | _, _ =>
        if fs.any contentCandidate || fs.any nameCandidate then (1, fs, [])
        else (0, fs, [])

/-- A well-formed configuration document carrying the two values. -/
def mkConfig (n l : List Char) : ConfigState :=
  .parsed (.map [("project",
    .map [("package", .map [("name", .str n), ("name_managed", .str l)])])])

/-- The package name configured in this repository. -/
def demoName : List Char := "Shulman_Intake".toList

/-- The managed package name configured in this repository. -/
def demoLabel : List Char := "Shulman-Intake".toList

/-- The parsed document of a well-formed cumulusci.yml carrying the two
repository values. -/
def demoYaml : Yaml :=
  .map [("project",
    .map [("package", .map [("name", .str demoName), ("name_managed", .str demoLabel)])])]

/-- A configuration state holding the repository values. -/
def demoCfg : ConfigState := .parsed demoYaml

/-- A text file under force-app whose content holds a token. -/
def fileTokenContent : Node :=
  ⟨["force-app"], "A.cls".toList, true, "class __PROJECT_NAME__Controller".toList,
    none, none, false⟩

/-- A content candidate whose write raises an uncaught OSError kind. -/
def fileBadWrite : Node :=
  ⟨["force-app"], "B.cls".toList, true, "__PROJECT_NAME__".toList,
    none, some .other, false⟩

/-- A further content candidate listed after fileBadWrite. -/
def fileSecond : Node :=
  ⟨["force-app"], "C.cls".toList, true, "__PROJECT_NAME__ second".toList,
    none, none, false⟩

/-- An undecodable file under force-app whose base name holds a token. -/
def fileBinary : Node :=
  ⟨["force-app"], "__PROJECT_NAME__.png".toList, true, "PNG".toList,
    some .unicodeDecode, none, false⟩

/-- A file outside the searched directories whose content holds a
token. -/
def fileOutside : Node :=
  ⟨[], "README.md".toList, true, NAME_TOK, none, none, false⟩

/-- A directory under force-app whose base name holds a token. -/
def dirToken : Node :=
  ⟨["force-app"], "__PROJECT_NAME__dir".toList, false, [], none, none, false⟩

/-- A name candidate whose rename raises an OSError. -/
def fileRenameFail : Node :=
  ⟨["force-app"], "__PROJECT_NAME__.cls".toList, true, "x".toList, none, none, true⟩

/-- A configuration with short replacement values used to exhibit
counterexamples. -/
def cexCfg : ConfigState := mkConfig "aa".toList "bb".toList

/-- A file whose text lets an inserted value abut an equal letter. -/
def cexFile : Node :=
  ⟨["force-app"], "f.txt".toList, true, "a__PROJECT_NAME__a".toList, none, none, false⟩

theorem SepFrom.tok_ne_nil {α : Type} [DecidableEq α] {rep tok : List α}
    (h : SepFrom rep tok) : tok ≠ [] := by
  intro hn
  apply h.1
  rw [hn]
  exact List.nil_infix

theorem SepFrom.rep_ne_nil {α : Type} [DecidableEq α] {rep tok : List α}
    (h : SepFrom rep tok) : rep ≠ [] := by
  intro hn
  apply h.2.1
  rw [hn]
  exact List.nil_infix

theorem SepFrom.tails_spec {α : Type} [DecidableEq α] {rep tok : List α}
    (h : SepFrom rep tok) : ∀ q, q ≠ [] → q <:+ rep → ¬ q <+: tok := by
  intro q hq hs
  exact (h.2.2.1 q ((List.mem_tails q rep).mpr hs)).resolve_left hq

theorem SepFrom.inits_spec {α : Type} [DecidableEq α] {rep tok : List α}
    (h : SepFrom rep tok) : ∀ q, q ≠ [] → q <+: rep → ¬ q <:+ tok := by
  intro q hq hp
  exact (h.2.2.2 q ((List.mem_inits q rep).mpr hp)).resolve_left hq

/-- Every occurrence of a pattern inside an appended list lies in the
left part, lies in the right part, or straddles the seam, in which case
it splits into a non-empty suffix of the left part and a non-empty
prefix of the right part. -/
theorem infixAppendSplit {α : Type} {l u v : List α} (h : l <:+: u ++ v) :
    l <:+: u ∨ l <:+: v ∨
      ∃ l₁ l₂, l = l₁ ++ l₂ ∧ l₁ ≠ [] ∧ l₂ ≠ [] ∧ l₁ <:+ u ∧ l₂ <+: v := by
  obtain ⟨s, t, hst⟩ := h
  by_cases hsu : u.length ≤ s.length
  · have hs1 : s <+: u ++ v := ⟨l ++ t, by simpa [List.append_assoc] using hst⟩
    have hpre : u <+: s :=
      List.prefix_of_prefix_length_le (List.prefix_append u v) hs1 hsu
    obtain ⟨s1, rfl⟩ := hpre
    right; left
    refine ⟨s1, t, ?_⟩
    have h2 : u ++ (s1 ++ (l ++ t)) = u ++ v := by
      simpa [List.append_assoc] using hst
    have h3 := List.append_cancel_left h2
    simpa [List.append_assoc] using h3
  · push_neg at hsu
    by_cases hl : s.length + l.length ≤ u.length
    · left
      have h1 : s ++ l <+: u ++ v := ⟨t, by simpa [List.append_assoc] using hst⟩
      have h2 : s ++ l <+: u := by
        refine List.prefix_of_prefix_length_le h1 (List.prefix_append u v) ?_
        simpa using hl
      obtain ⟨r, hr⟩ := h2
      exact ⟨s, r, by simpa [List.append_assoc] using hr⟩
    · push_neg at hl
      right; right
      set k := u.length - s.length with hkdef
      have hk0 : 0 < k := Nat.sub_pos_of_lt hsu
      have hkl : k < l.length := by omega
      have htk : (l.take k).length = k := by
        rw [List.length_take]
        omega
      have hu : s ++ l.take k = u := by
        have h0 : s ++ l.take k <+: s ++ l := by
          rw [List.prefix_append_right_inj]
          exact List.take_prefix _ l
        have h1 : s ++ l.take k <+: u ++ v := by
          refine h0.trans ⟨t, ?_⟩
          simpa [List.append_assoc] using hst
        have hlen : (s ++ l.take k).length = u.length := by
          rw [List.length_append, htk]
          omega
        exact List.IsPrefix.eq_of_length
          (List.prefix_of_prefix_length_le h1 (List.prefix_append u v)
            (le_of_eq hlen)) hlen
      have hv : v = l.drop k ++ t := by
        have hstp : s ++ (l ++ t) = u ++ v := by
          simpa [List.append_assoc] using hst
        have hc : u ++ (l.drop k ++ t) = u ++ v := by
          conv_lhs => rw [← hu]
          rw [List.append_assoc,
            ← List.append_assoc (List.take k l) (List.drop k l) t,
            List.take_append_drop]
          exact hstp
        exact (List.append_cancel_left hc).symm
      refine ⟨l.take k, l.drop k,
        (List.take_append_drop _ l).symm, ?_, ?_, ⟨s, hu⟩, ⟨t, hv.symm⟩⟩
      · intro hemp
        rw [hemp] at htk
        simp at htk
        omega
      · intro hemp
        have hld := congrArg List.length hemp
        rw [List.length_drop] at hld
        simp at hld
        omega

/-- If a non-empty suffix q of a protected word T is a prefix of the
output of the replacement scan, then q is already a prefix of the
scanned input: a prefix of the output reaching into an inserted copy of
rep would force rep to overlap T, which the separation hypotheses
forbid. -/
theorem prefixPullback {α : Type} [DecidableEq α] {pat rep T : List α}
    (hrT : ¬ rep <:+: T)
    (hinits : ∀ q, q ≠ [] → q <+: rep → ¬ q <:+ T) :
    ∀ fuel s q, s.length ≤ fuel → q ≠ [] → q <:+ T →
      q <+: replaceAllF pat rep fuel s → q <+: s := by
  intro fuel
  induction fuel with
  | zero =>
    intro s q hs hq hqT hpre
    have hnil : s = [] := List.length_eq_zero.mp (Nat.le_zero.mp hs)
    subst hnil
    simp only [replaceAllF] at hpre
    exact absurd (List.prefix_nil.mp hpre) hq
  | succ fuel ih =>
    intro s q hs hq hqT hpre
    match s with
    | [] =>
      simp only [replaceAllF] at hpre
      exact absurd (List.prefix_nil.mp hpre) hq
    | c :: s' =>
      by_cases hmatch : pat <+: c :: s' ∧ pat ≠ []
      · simp only [replaceAllF, if_pos hmatch] at hpre
        by_cases hlen : q.length ≤ rep.length
        · have hqrep : q <+: rep :=
            List.prefix_of_prefix_length_le hpre (List.prefix_append rep _) hlen
          exact absurd hqT (hinits q hq hqrep)
        · push_neg at hlen
          have hrq : rep <+: q :=
            List.prefix_of_prefix_length_le (List.prefix_append rep _) hpre
              (le_of_lt hlen)
          have hinf : rep <:+: T :=
            List.IsInfix.trans ( List.IsPrefix.isInfix hrq)
              ( List.IsSuffix.isInfix hqT)
          exact absurd hinf hrT
      · simp only [replaceAllF, if_neg hmatch] at hpre
        obtain ⟨a, q', rfl⟩ : ∃ a q', q = a :: q' := by
          cases q with
          | nil => exact absurd rfl hq
          | cons a q' => exact ⟨a, q', rfl⟩
        rw [List.cons_prefix_cons] at hpre
        obtain ⟨rfl, hq'⟩ := hpre
        by_cases hq'e : q' = []
        · subst hq'e
          exact (List.cons_prefix_cons).mpr ⟨rfl, List.nil_prefix⟩
        · have hq'T : q' <:+ T := List.IsSuffix.trans ⟨[a], rfl⟩ hqT
          have hs' : s'.length ≤ fuel := by simpa using hs
          have hres := ih s' q' hs' hq'e hq'T hq'
          exact (List.cons_prefix_cons).mpr ⟨rfl, hres⟩

/-- After replacing every occurrence of pat by rep, no occurrence of pat
remains, provided rep is separated from pat. -/
theorem noSelfAux {α : Type} [DecidableEq α] {pat rep : List α}
    (hsep : SepFrom rep pat) :
    ∀ fuel s, s.length ≤ fuel → ¬ pat <:+: replaceAllF pat rep fuel s := by
  have hpat : pat ≠ [] := hsep.tok_ne_nil
  intro fuel
  induction fuel with
  | zero =>
    intro s hs hinf
    have hnil : s = [] := List.length_eq_zero.mp (Nat.le_zero.mp hs)
    subst hnil
    simp only [replaceAllF] at hinf
    exact hpat (List.infix_nil.mp hinf)
  | succ fuel ih =>
    intro s hs hinf
    match s with
    | [] =>
      simp only [replaceAllF] at hinf
      exact hpat (List.infix_nil.mp hinf)
    | c :: s' =>
      by_cases hmatch : pat <+: c :: s' ∧ pat ≠ []
      · simp only [replaceAllF, if_pos hmatch] at hinf
        rcases infixAppendSplit hinf with h | h | ⟨p1, p2, hsplit, hp1, _, hp1s, _⟩
        · exact hsep.1 h
        · have hdrop : (List.drop pat.length (c :: s')).length ≤ fuel := by
            rw [List.length_drop]
            have hp1 : 1 ≤ pat.length := List.length_pos.mpr hpat
            simp only [List.length_cons] at hs ⊢
            omega
          exact ih _ hdrop h
        · exact hsep.tails_spec p1 hp1 hp1s (hsplit ▸ List.prefix_append p1 p2)
      · simp only [replaceAllF, if_neg hmatch] at hinf
        rw [List.infix_cons_iff] at hinf
        have hs' : s'.length ≤ fuel := by simpa using hs
        rcases hinf with hpre | hinf
        · obtain ⟨a, pat', hpa⟩ : ∃ a pat', pat = a :: pat' := by
            cases pat with
            | nil => exact absurd rfl hpat
            | cons a p => exact ⟨a, p, rfl⟩
          subst hpa
          rw [List.cons_prefix_cons] at hpre
          obtain ⟨rfl, hp'⟩ := hpre
          by_cases hp'e : pat' = []
          · subst hp'e
            exact hmatch ⟨(List.cons_prefix_cons).mpr ⟨rfl, List.nil_prefix⟩,
              by simp⟩
          · have hres := prefixPullback hsep.2.1 hsep.inits_spec fuel s' pat'
              hs' hp'e ⟨[a], rfl⟩ hp'
            exact hmatch ⟨(List.cons_prefix_cons).mpr ⟨rfl, hres⟩, by simp⟩
        · exact ih s' hs' hinf

/-- Replacing pat by rep cannot create an occurrence of a word T that was
absent, provided rep is separated from T. -/
theorem preserveAux {α : Type} [DecidableEq α] {pat rep T : List α}
    (hsep : SepFrom rep T) :
    ∀ fuel s, s.length ≤ fuel → ¬ T <:+: s →
      ¬ T <:+: replaceAllF pat rep fuel s := by
  have hT : T ≠ [] := hsep.tok_ne_nil
  intro fuel
  induction fuel with
  | zero =>
    intro s hs habs hinf
    have hnil : s = [] := List.length_eq_zero.mp (Nat.le_zero.mp hs)
    subst hnil
    simp only [replaceAllF] at hinf
    exact hT (List.infix_nil.mp hinf)
  | succ fuel ih =>
    intro s hs habs hinf
    match s with
    | [] =>
      simp only [replaceAllF] at hinf
      exact hT (List.infix_nil.mp hinf)
    | c :: s' =>
      by_cases hmatch : pat <+: c :: s' ∧ pat ≠ []
      · simp only [replaceAllF, if_pos hmatch] at hinf
        rcases infixAppendSplit hinf with h | h | ⟨p1, p2, hsplit, hp1, _, hp1s, _⟩
        · exact hsep.1 h
        · have hdrop : (List.drop pat.length (c :: s')).length ≤ fuel := by
            rw [List.length_drop]
            have hp1 : 1 ≤ pat.length := List.length_pos.mpr hmatch.2
            simp only [List.length_cons] at hs ⊢
            omega
          have habs2 : ¬ T <:+: List.drop pat.length (c :: s') := fun hx =>
            habs (hx.trans ( List.IsSuffix.isInfix (List.drop_suffix _ _)))
          exact ih _ hdrop habs2 h
        · exact hsep.tails_spec p1 hp1 hp1s (hsplit ▸ List.prefix_append p1 p2)
      · simp only [replaceAllF, if_neg hmatch] at hinf
        rw [List.infix_cons_iff] at hinf
        have hs' : s'.length ≤ fuel := by simpa using hs
        have habs' : ¬ T <:+: s' := fun hx => habs (List.infix_cons hx)
        rcases hinf with hpre | hinf
        · obtain ⟨a, T', hTa⟩ : ∃ a T', T = a :: T' := by
            cases T with
            | nil => exact absurd rfl hT
            | cons a p => exact ⟨a, p, rfl⟩
          subst hTa
          rw [List.cons_prefix_cons] at hpre
          obtain ⟨rfl, hp'⟩ := hpre
          by_cases hp'e : T' = []
          · subst hp'e
            exact habs ( List.IsPrefix.isInfix
              ((List.cons_prefix_cons).mpr ⟨rfl, List.nil_prefix⟩))
          · have hres := prefixPullback hsep.2.1 hsep.inits_spec fuel s' T'
              hs' hp'e ⟨[a], rfl⟩ hp'
            exact habs ( List.IsPrefix.isInfix
              ((List.cons_prefix_cons).mpr ⟨rfl, hres⟩))
        · exact ih s' hs' habs' hinf

/-- Scanning a word that does not contain the pattern changes nothing. -/
theorem replaceAllFSkip {α : Type} [DecidableEq α] {pat rep : List α} :
    ∀ fuel s, s.length ≤ fuel → ¬ pat <:+: s → replaceAllF pat rep fuel s = s := by
  intro fuel
  induction fuel with
  | zero =>
    intro s hs _
    have hnil : s = [] := List.length_eq_zero.mp (Nat.le_zero.mp hs)
    subst hnil
    simp [replaceAllF]
  | succ fuel ih =>
    intro s hs habs
    match s with
    | [] => simp [replaceAllF]
    | c :: s' =>
      have hmatch : ¬ (pat <+: c :: s' ∧ pat ≠ []) := fun hx =>
        habs ( List.IsPrefix.isInfix hx.1)
      simp only [replaceAllF, if_neg hmatch]
      have hs' : s'.length ≤ fuel := by simpa using hs
      have habs' : ¬ pat <:+: s' := fun hx => habs (List.infix_cons hx)
      rw [ih s' hs' habs']

/-- A word that does not contain the pattern has occurrence count zero. -/
theorem countOccsFZero {α : Type} [DecidableEq α] {pat : List α} :
    ∀ fuel s, ¬ pat <:+: s → countOccsF pat fuel s = 0 := by
  intro fuel
  induction fuel with
  | zero =>
    intro s _
    match s with
    | [] => simp [countOccsF]
    | c :: s' => simp [countOccsF]
  | succ fuel ih =>
    intro s habs
    match s with
    | [] => simp [countOccsF]
    | c :: s' =>
      have hmatch : ¬ (pat <+: c :: s' ∧ pat ≠ []) := fun hx =>
        habs ( List.IsPrefix.isInfix hx.1)
      simp only [countOccsF, if_neg hmatch]
      exact ih s' (fun hx => habs (List.infix_cons hx))

/-- After replacing every occurrence of pat by a separated rep, the
occurrence count of pat is zero. -/
theorem countOccsReplaceAllSelf {α : Type} [DecidableEq α] {pat rep : List α}
    (hsep : SepFrom rep pat) (s : List α) :
    countOccs pat (replaceAll pat rep s) = 0 :=
  countOccsFZero _ _ (noSelfAux hsep s.length s le_rfl)

theorem noSelf {α : Type} [DecidableEq α] {pat rep : List α}
    (hsep : SepFrom rep pat) (s : List α) : ¬ pat <:+: replaceAll pat rep s :=
  noSelfAux hsep s.length s le_rfl

theorem preserve {α : Type} [DecidableEq α] {pat rep T : List α}
    (hsep : SepFrom rep T) {s : List α} (habs : ¬ T <:+: s) :
    ¬ T <:+: replaceAll pat rep s :=
  preserveAux hsep s.length s le_rfl habs

theorem replaceAllSkip {α : Type} [DecidableEq α] {pat rep s : List α}
    (habs : ¬ pat <:+: s) : replaceAll pat rep s = s :=
  replaceAllFSkip s.length s le_rfl habs

theorem loadValues_mkConfig (n l : List Char) :
    loadValues (mkConfig n l) = .ok (.str n, .str l) := rfl

/-- Behaviour of update_file_content when both the read and the write
succeed: the node keeps every field except that its text is the
substituted text, and the function reports whether the text changed. -/
theorem update_file_content_ok (name label : List Char) (n : Node)
    (hr : n.readErr = none) (hw : n.writeErr = none) :
    update_file_content name label n =
      if updateContent n.text name label = n.text then .ok (n, false, [])
      else .ok ({ n with text := updateContent n.text name label }, true, []) := by
  unfold update_file_content
  rw [hr, hw]

/-- update_file_content never raises when the read succeeds and the
write does not fail with an uncaught kind. -/
theorem update_file_content_no_other (name label : List Char) (n : Node)
    (hr : n.readErr = none) (hw : n.writeErr ≠ some .other) :
    ∃ r, update_file_content name label n = .ok r := by
  unfold update_file_content
  rw [hr]
  by_cases hc : updateContent n.text name label = n.text
  · exact ⟨_, by rw [if_pos hc]⟩
  · rw [if_neg hc]
    match hwe : n.writeErr with
    | none => exact ⟨_, rfl⟩
    | some .unicodeDecode => exact ⟨_, rfl⟩
    | some .permission => exact ⟨_, rfl⟩
    | some .other => exact absurd hwe hw

/-- Every event emitted by update_file_content is an update-phase
event. -/
theorem update_file_content_events (name label : List Char) (n n2 : Node)
    (ch : Bool) (evs : List Event)
    (h : update_file_content name label n = .ok (n2, ch, evs)) :
    ∀ e ∈ evs, Event.isUpd e = true := by
  unfold update_file_content at h
  match hre : n.readErr with
  | some .unicodeDecode =>
    rw [hre] at h
    cases h
    intro e he
    simp at he
    subst he
    trivial
  | some .permission =>
    rw [hre] at h
    cases h
    intro e he
    simp at he
    subst he
    trivial
  | some .other => rw [hre] at h; cases h
  | none =>
    rw [hre] at h
    by_cases hc : updateContent n.text name label = n.text
    · rw [if_pos hc] at h
      cases h
      intro e he
      simp at he
    · rw [if_neg hc] at h
      match hwe : n.writeErr with
      | none =>
        rw [hwe] at h
        cases h
        intro e he
        simp at he
      | some .unicodeDecode =>
        rw [hwe] at h
        cases h
        intro e he
        simp at he
        subst he
        trivial
      | some .permission =>
        rw [hwe] at h
        cases h
        intro e he
        simp at he
        subst he
        trivial
      | some .other => rw [hwe] at h; cases h

/-- A content candidate reads successfully (the scan already read it). -/
theorem contentCandidate_readErr {n : Node} (h : contentCandidate n = true) :
    n.readErr = none := by
  simp only [contentCandidate, Bool.and_eq_true, beq_iff_eq] at h
  exact h.1.2

/-- The update loop never stops early when every candidate write, if it
fails at all, fails with a caught exception kind. -/
theorem updateWalk_no_crash (name label : List Char) :
    ∀ fs : List Node, (∀ n ∈ fs, contentCandidate n = true → n.writeErr ≠ some .other) →
      (updateWalk name label fs).2.2 = none := by
  intro fs
  induction fs with
  | nil => intro _; rfl
  | cons n rest ih =>
    intro h
    by_cases hc : contentCandidate n = true
    · obtain ⟨⟨n2, ch, evs⟩, hok⟩ := update_file_content_no_other name label n
        (contentCandidate_readErr hc) (h n (by simp) hc)
      simp only [updateWalk, hc, if_true, hok]
      exact ih fun m hm hcm => h m (by simp [hm]) hcm
    · simp only [updateWalk, hc, if_false, Bool.false_eq_true]
      exact ih fun m hm hcm => h m (by simp [hm]) hcm

/-- Nodes that are not content candidates pass through the update loop
verbatim. -/
theorem updateWalk_mem_nonCand (name label : List Char) :
    ∀ fs : List Node, ∀ n ∈ fs, contentCandidate n = false →
      n ∈ (updateWalk name label fs).1 := by
  intro fs
  induction fs with
  | nil => intro n hn; simp at hn
  | cons m rest ih =>
    intro n hn hnc
    rcases List.mem_cons.mp hn with rfl | hn2
    · simp only [updateWalk, hnc, if_false, Bool.false_eq_true]
      simp
    · by_cases hc : contentCandidate m = true
      · rcases hok : update_file_content name label m with e | ⟨m2, ch, evs⟩
        · simp only [updateWalk, hc, if_true, hok]
          simp [hn2]
        · simp only [updateWalk, hc, if_true, hok]
          simp only [List.mem_cons]
          exact Or.inr (ih n hn2 hnc)
      · simp only [updateWalk, hc, if_false, Bool.false_eq_true]
        simp only [List.mem_cons]
        exact Or.inr (ih n hn2 hnc)

/-- When the update loop finishes without an uncaught exception, every
content candidate whose write succeeds appears in the output with its
text substituted and every other field intact. -/
theorem updateWalk_mem_cand (name label : List Char) :
    ∀ fs : List Node, ∀ n ∈ fs, contentCandidate n = true → n.writeErr = none →
      (updateWalk name label fs).2.2 = none →
      { n with text := updateContent n.text name label } ∈ (updateWalk name label fs).1 := by
  intro fs
  induction fs with
  | nil => intro n hn; simp at hn
  | cons m rest ih =>
    intro n hn hc hw herr
    rcases List.mem_cons.mp hn with rfl | hn2
    · have hup := update_file_content_ok name label n (contentCandidate_readErr hc) hw
      by_cases hch : updateContent n.text name label = n.text
      · rw [if_pos hch] at hup
        simp only [updateWalk, hc, if_true, hup]
        have hsame : { n with text := updateContent n.text name label } = n := by
          rw [hch]
        rw [hsame]
        simp
      · rw [if_neg hch] at hup
        simp only [updateWalk, hc, if_true, hup]
        simp
    · by_cases hcm : contentCandidate m = true
      · rcases hok : update_file_content name label m with e | ⟨m2, ch, evs⟩
        · simp only [updateWalk, hcm, if_true, hok] at herr ⊢
          simp at herr
        · simp only [updateWalk, hcm, if_true, hok] at herr ⊢
          simp only [List.mem_cons]
          exact Or.inr (ih n hn2 hc hw herr)
      · simp only [updateWalk, hcm, if_false, Bool.false_eq_true] at herr ⊢
        simp only [List.mem_cons]
        exact Or.inr (ih n hn2 hc hw herr)

/-- A successful return of update_file_content leaves the node alone or
changes exactly its text to the substituted text. -/
theorem update_file_content_ok_shape (name label : List Char) (n n2 : Node)
    (ch : Bool) (evs : List Event)
    (h : update_file_content name label n = .ok (n2, ch, evs)) :
    n2 = n ∨ n2 = { n with text := updateContent n.text name label } := by
  unfold update_file_content at h
  match hre : n.readErr with
  | some .unicodeDecode => rw [hre] at h; cases h; left; rfl
  | some .permission => rw [hre] at h; cases h; left; rfl
  | some .other => rw [hre] at h; cases h
  | none =>
    rw [hre] at h
    by_cases hc : updateContent n.text name label = n.text
    · rw [if_pos hc] at h
      cases h
      left; rfl
    · rw [if_neg hc] at h
      match hwe : n.writeErr with
      | none => rw [hwe] at h; cases h; right; rfl
      | some .unicodeDecode => rw [hwe] at h; cases h; left; rfl
      | some .permission => rw [hwe] at h; cases h; left; rfl
      | some .other => rw [hwe] at h; cases h

/-- The update loop preserves any filter that discards all content
candidates and ignores the text field: in particular everything outside
the searched directories, and every directory, survives unchanged in
place. -/
theorem updateWalk_filter (name label : List Char) (p : Node → Bool)
    (hp : ∀ n, contentCandidate n = true → p n = false)
    (hp2 : ∀ n t, p { n with text := t } = p n) :
    ∀ fs : List Node, (updateWalk name label fs).1.filter p = fs.filter p := by
  intro fs
  induction fs with
  | nil => rfl
  | cons m rest ih =>
    by_cases hc : contentCandidate m = true
    · rcases hok : update_file_content name label m with e | ⟨m2, ch, evs⟩
      · simp only [updateWalk, hc, if_true, hok]
      · have hm2 : p m2 = false := by
          rcases update_file_content_ok_shape name label m m2 ch evs hok with heq | hshape
          · rw [heq]
            exact hp m hc
          · rw [hshape, hp2]
            exact hp m hc
        simp only [updateWalk, hc, if_true, hok]
        simp only [List.filter_cons, hm2, hp m hc]
        exact ih
    · simp only [updateWalk, hc, if_false, Bool.false_eq_true]
      simp only [List.filter_cons]
      by_cases hpm : p m = true
      · simp only [hpm]
        rw [ih]
      · simp only [Bool.not_eq_true] at hpm
        simp only [hpm]
        exact ih

/-- Every event the update loop emits belongs to the update phase. -/
theorem updateWalk_events (name label : List Char) :
    ∀ fs : List Node, ∀ e ∈ (updateWalk name label fs).2.1, Event.isUpd e = true := by
  intro fs
  induction fs with
  | nil => intro e he; simp [updateWalk] at he
  | cons m rest ih =>
    intro e he
    by_cases hc : contentCandidate m = true
    · rcases hok : update_file_content name label m with err | ⟨m2, ch, evs⟩
      · simp only [updateWalk, hc, if_true, hok] at he
        simp at he
      · simp only [updateWalk, hc, if_true, hok] at he
        rcases List.mem_append.mp he with h1 | h1
        · rcases List.mem_append.mp h1 with h2 | h2
          · exact update_file_content_events name label m m2 ch evs hok e h2
          · by_cases hch : ch = true
            · rw [hch] at h2
              simp at h2
              subst h2
              rfl
            · simp only [Bool.not_eq_true] at hch
              rw [hch] at h2
              simp at h2
        · exact ih e h1
    · simp only [updateWalk, hc, if_false, Bool.false_eq_true] at he
      exact ih e he

/-- rename_file keeps every field except possibly the base name. -/
theorem rename_file_preserves (name label : List Char) (n : Node) :
    (rename_file name label n).1.parent = n.parent ∧
      (rename_file name label n).1.text = n.text ∧
      (rename_file name label n).1.isFile = n.isFile ∧
      (rename_file name label n).1.readErr = n.readErr := by
  unfold rename_file
  by_cases h1 : replaceAll LABEL_TOK label (replaceAll NAME_TOK name n.name) = n.name
  · rw [if_pos h1]
    exact ⟨rfl, rfl, rfl, rfl⟩
  · rw [if_neg h1]
    by_cases h2 : n.renameErr = true
    · rw [h2]
      simp
    · simp only [Bool.not_eq_true] at h2
      rw [h2]
      simp

/-- When the rename call itself succeeds, rename_file gives the node
the substituted base name (possibly equal to the old one). -/
theorem rename_file_noErr (name label : List Char) (n : Node)
    (h : n.renameErr = false) :
    (rename_file name label n).1 =
      { n with name := replaceAll LABEL_TOK label (replaceAll NAME_TOK name n.name) } := by
  unfold rename_file
  by_cases h1 : replaceAll LABEL_TOK label (replaceAll NAME_TOK name n.name) = n.name
  · rw [if_pos h1, h1]
  · rw [if_neg h1, h]
    simp

/-- When the rename raises and the new name differs, rename_file prints
a warning and returns the node untouched. -/
theorem rename_file_err (name label : List Char) (n : Node)
    (h1 : replaceAll LABEL_TOK label (replaceAll NAME_TOK name n.name) ≠ n.name)
    (h2 : n.renameErr = true) :
    rename_file name label n =
      (n, false, [.warnRename n.parent n.name
        (replaceAll LABEL_TOK label (replaceAll NAME_TOK name n.name))]) := by
  unfold rename_file
  rw [if_neg h1, h2]
  simp

/-- Every event the rename loop emits belongs to the rename phase. -/
theorem renameWalk_events (name label : List Char) :
    ∀ fs : List Node, ∀ e ∈ (renameWalk name label fs).2, Event.isRen e = true := by
  intro fs
  induction fs with
  | nil => intro e he; simp [renameWalk] at he
  | cons m rest ih =>
    intro e he
    by_cases hc : nameCandidate m = true
    · simp only [renameWalk, hc, if_true] at he
      rcases List.mem_append.mp he with h1 | h1
      · rcases List.mem_append.mp h1 with h2 | h2
        · have hre : (rename_file name label m).2.2 = [] ∨
              ∃ nm, (rename_file name label m).2.2 =
                [.warnRename m.parent m.name nm] := by
            unfold rename_file
            by_cases hn1 : replaceAll LABEL_TOK label
                (replaceAll NAME_TOK name m.name) = m.name
            · rw [if_pos hn1]
              left; rfl
            · rw [if_neg hn1]
              by_cases hn2 : m.renameErr = true
              · rw [hn2]
                right
                exact ⟨_, rfl⟩
              · simp only [Bool.not_eq_true] at hn2
                rw [hn2]
                left; rfl
          rcases hre with hre | ⟨nm, hre⟩
          · rw [hre] at h2
            simp at h2
          · rw [hre] at h2
            simp at h2
            subst h2
            rfl
        · by_cases hch : (rename_file name label m).2.1 = true
          · rw [hch] at h2
            simp at h2
            subst h2
            rfl
          · simp only [Bool.not_eq_true] at hch
            rw [hch] at h2
            simp at h2
      · exact ih e h1
    · simp only [renameWalk, hc, if_false, Bool.false_eq_true] at he
      exact ih e he

/-- Every node survives the rename loop with parent, text, file flag and
read outcome intact (only the base name can change). -/
theorem renameWalk_mem_preserve (name label : List Char) :
    ∀ fs : List Node, ∀ n ∈ fs, ∃ n2 ∈ (renameWalk name label fs).1,
      n2.parent = n.parent ∧ n2.text = n.text ∧ n2.isFile = n.isFile ∧
        n2.readErr = n.readErr := by
  intro fs
  induction fs with
  | nil => intro n hn; simp at hn
  | cons m rest ih =>
    intro n hn
    rcases List.mem_cons.mp hn with rfl | hn2
    · by_cases hc : nameCandidate n = true
      · refine ⟨(rename_file name label n).1, ?_, ?_⟩
        · simp only [renameWalk, hc, if_true]
          simp
        · exact rename_file_preserves name label n
      · refine ⟨n, ?_, rfl, rfl, rfl, rfl⟩
        simp only [renameWalk, hc, if_false, Bool.false_eq_true]
        simp
    · obtain ⟨n2, hmem, hprops⟩ := ih n hn2
      refine ⟨n2, ?_, hprops⟩
      by_cases hc : nameCandidate m = true
      · simp only [renameWalk, hc, if_true]
        simp only [List.mem_cons]
        exact Or.inr hmem
      · simp only [renameWalk, hc, if_false, Bool.false_eq_true]
        simp only [List.mem_cons]
        exact Or.inr hmem

/-- A name candidate whose rename succeeds appears in the output of the
rename loop with the substituted base name and all other fields
intact. -/
theorem renameWalk_mem_renamed (name label : List Char) :
    ∀ fs : List Node, ∀ n ∈ fs, nameCandidate n = true → n.renameErr = false →
      { n with name := replaceAll LABEL_TOK label (replaceAll NAME_TOK name n.name) }
        ∈ (renameWalk name label fs).1 := by
  intro fs
  induction fs with
  | nil => intro n hn; simp at hn
  | cons m rest ih =>
    intro n hn hc hre
    rcases List.mem_cons.mp hn with rfl | hn2
    · simp only [renameWalk, hc, if_true]
      rw [← rename_file_noErr name label n hre]
      simp
    · have hmem := ih n hn2 hc hre
      by_cases hcm : nameCandidate m = true
      · simp only [renameWalk, hcm, if_true]
        simp only [List.mem_cons]
        exact Or.inr hmem
      · simp only [renameWalk, hcm, if_false, Bool.false_eq_true]
        simp only [List.mem_cons]
        exact Or.inr hmem

/-- The node returned by rename_file is the argument or the argument
with the substituted name. -/
theorem rename_file_shape (name label : List Char) (n : Node) :
    (rename_file name label n).1 = n ∨
      (rename_file name label n).1 =
        { n with name := replaceAll LABEL_TOK label (replaceAll NAME_TOK name n.name) } := by
  unfold rename_file
  by_cases hn1 : replaceAll LABEL_TOK label (replaceAll NAME_TOK name n.name) = n.name
  · rw [if_pos hn1]
    left; rfl
  · rw [if_neg hn1]
    by_cases hn2 : n.renameErr = true
    · rw [hn2]
      left; rfl
    · simp only [Bool.not_eq_true] at hn2
      rw [hn2]
      right; rfl

/-- The rename loop preserves any filter that discards all name
candidates and ignores the name field. -/
theorem renameWalk_filter (name label : List Char) (p : Node → Bool)
    (hp : ∀ n, nameCandidate n = true → p n = false)
    (hp2 : ∀ n s, p { n with name := s } = p n) :
    ∀ fs : List Node, (renameWalk name label fs).1.filter p = fs.filter p := by
  intro fs
  induction fs with
  | nil => rfl
  | cons m rest ih =>
    by_cases hc : nameCandidate m = true
    · have hm2 : p (rename_file name label m).1 = false := by
        rcases rename_file_shape name label m with heq | heq
        · rw [heq]
          exact hp m hc
        · rw [heq, hp2]
          exact hp m hc
      simp only [renameWalk, hc, if_true]
      simp only [List.filter_cons, hm2, hp m hc]
      exact ih
    · simp only [renameWalk, hc, if_false, Bool.false_eq_true]
      simp only [List.filter_cons]
      by_cases hpm : p m = true
      · simp only [hpm]
        rw [ih]
      · simp only [Bool.not_eq_true] at hpm
        simp only [hpm]
        exact ih

/-- The rename loop distributes over concatenation: processing a list is
processing its parts in order. -/
theorem renameWalk_append (name label : List Char) :
    ∀ u v : List Node,
      (renameWalk name label (u ++ v)).1 =
        (renameWalk name label u).1 ++ (renameWalk name label v).1 ∧
      (renameWalk name label (u ++ v)).2 =
        (renameWalk name label u).2 ++ (renameWalk name label v).2 := by
  intro u v
  induction u with
  | nil => exact ⟨rfl, rfl⟩
  | cons m rest ih =>
    by_cases hc : nameCandidate m = true
    · constructor
      · simp only [List.cons_append, renameWalk, hc, if_true, List.append_eq]
        rw [ih.1]
      · simp only [List.cons_append, renameWalk, hc, if_true, List.append_eq]
        rw [ih.2]
        simp [List.append_assoc]
    · constructor
      · simp only [List.cons_append, renameWalk, hc, if_false, Bool.false_eq_true,
          List.append_eq]
        rw [ih.1]
      · simp only [List.cons_append, renameWalk, hc, if_false, Bool.false_eq_true,
          List.append_eq]
        rw [ih.2]

/-- The content scan completes without raising whenever no file under
the searched directories fails its read with an uncaught kind. -/
theorem scan_ok :
    ∀ fs : List Node,
      (∀ n ∈ fs, underSearchB n = true → n.isFile = true → n.readErr ≠ some .other) →
      ∃ l, find_files_with_placeholders fs = .ok l := by
  intro fs
  induction fs with
  | nil => exact fun _ => ⟨[], rfl⟩
  | cons m rest ih =>
    intro h
    have hrest : ∃ l, find_files_with_placeholders rest = .ok l :=
      ih fun n hn => h n (by simp [hn])
    obtain ⟨l, hl⟩ := hrest
    by_cases hui : (underSearchB m && m.isFile) = true
    · have hum := Bool.and_eq_true_iff.mp hui
      match hre : m.readErr with
      | some .other =>
        exact absurd hre (h m (by simp) hum.1 hum.2)
      | some .unicodeDecode =>
        refine ⟨l, ?_⟩
        simp only [find_files_with_placeholders, hui, if_true, hre]
        exact hl
      | some .permission =>
        refine ⟨l, ?_⟩
        simp only [find_files_with_placeholders, hui, if_true, hre]
        exact hl
      | none =>
        by_cases ht : hasTokText m.text = true
        · refine ⟨(m.parent, m.name) :: l, ?_⟩
          simp only [find_files_with_placeholders, hui, if_true, hre, ht, hl]
        · refine ⟨l, ?_⟩
          simp only [find_files_with_placeholders, hui, if_true, hre, ht,
            Bool.false_eq_true, if_false]
          exact hl
    · refine ⟨l, ?_⟩
      simp only [find_files_with_placeholders, hui, Bool.false_eq_true, if_false]
      exact hl

/-- When configuration loading fails, main returns 1 having touched
nothing. -/
theorem run_load_error (cfg : ConfigState) (fs : List Node) (e : LoadErr)
    (he : loadValues cfg = .error e) : run cfg fs = (1, fs, []) := by
  unfold run
  rw [he]

/-- When the scan raises, main aborts with nothing modified. -/
theorem run_scan_error (cfg : ConfigState) (fs : List Node) (ny ly : Yaml)
    (e : PerFileErr) (hload : loadValues cfg = .ok (ny, ly))
    (hscan : find_files_with_placeholders fs = .error e) :
    run cfg fs = (1, fs, []) := by
  unfold run
  rw [hload, hscan]

/-- When an uncaught exception stops the update loop, main aborts with
the updates performed so far and no renames. -/
theorem run_crash_eq (cfg : ConfigState) (fs : List Node) (name label : List Char)
    (l : List (List String × List Char)) (e : PerFileErr)
    (hload : loadValues cfg = .ok (.str name, .str label))
    (hscan : find_files_with_placeholders fs = .ok l)
    (herr : (updateWalk name label fs).2.2 = some e) :
    run cfg fs = (1, (updateWalk name label fs).1, (updateWalk name label fs).2.1) := by
  unfold run
  rw [hload, hscan]
  simp only [herr]

/-- A run that loads string values, scans cleanly and updates without an
uncaught exception renames after updating and exits with status 0. -/
theorem run_ok_eq (cfg : ConfigState) (fs : List Node) (name label : List Char)
    (l : List (List String × List Char))
    (hload : loadValues cfg = .ok (.str name, .str label))
    (hscan : find_files_with_placeholders fs = .ok l)
    (herr : (updateWalk name label fs).2.2 = none) :
    run cfg fs = (0, (renameWalk name label (updateWalk name label fs).1).1,
      (updateWalk name label fs).2.1 ++
        (renameWalk name label (updateWalk name label fs).1).2) := by
  unfold run
  rw [hload, hscan]
  simp only [herr]

/-- Inversion of a successful run with string-valued configuration: the
scan succeeded, the update loop finished, and the result is the rename
loop applied after the update loop. -/
theorem run_zero_inv (cfg : ConfigState) (fs : List Node) (name label : List Char)
    (hload : loadValues cfg = .ok (.str name, .str label))
    (hzero : (run cfg fs).1 = 0) :
    ∃ l, find_files_with_placeholders fs = .ok l ∧
      (updateWalk name label fs).2.2 = none ∧
      run cfg fs = (0, (renameWalk name label (updateWalk name label fs).1).1,
        (updateWalk name label fs).2.1 ++
          (renameWalk name label (updateWalk name label fs).1).2) := by
  have hsplit : (∃ e, find_files_with_placeholders fs = .error e) ∨
      (∃ l, find_files_with_placeholders fs = .ok l) := by
    cases find_files_with_placeholders fs with
    | error e => exact Or.inl ⟨e, rfl⟩
    | ok l => exact Or.inr ⟨l, rfl⟩
  rcases hsplit with ⟨e, hscan⟩ | ⟨l, hscan⟩
  · rw [run_scan_error cfg fs _ _ e hload hscan] at hzero
    simp at hzero
  · have hsplit2 : (∃ e, (updateWalk name label fs).2.2 = some e) ∨
        (updateWalk name label fs).2.2 = none := by
      cases (updateWalk name label fs).2.2 with
      | none => exact Or.inr rfl
      | some e => exact Or.inl ⟨e, rfl⟩
    rcases hsplit2 with ⟨e, herr⟩ | herr
    · rw [run_crash_eq cfg fs name label l e hload hscan herr] at hzero
      simp at hzero
    · exact ⟨l, hscan, herr, run_ok_eq cfg fs name label l hload hscan herr⟩

/-- A chain of subscripts returns a value exactly when the independent
path lookup reaches that value. -/
theorem chainGet_ok_iff :
    ∀ (ks : List String) (y v : Yaml), chainGet y ks = .ok v ↔ lookupPath y ks = some v := by
  intro ks
  induction ks with
  | nil =>
    intro y v
    simp [chainGet, lookupPath]
  | cons k ks ih =>
    intro y v
    match y with
    | .null => simp [chainGet, yamlGet, lookupPath]
    | .str s => simp [chainGet, yamlGet, lookupPath]
    | .map es =>
      simp only [chainGet, yamlGet, lookupPath]
      cases hlk : es.lookup k with
      | some w => exact ih w v
      | none => simp

/-- A chain of subscripts raises exactly when the independent path
lookup fails. -/
theorem chainGet_error_exists (ks : List String) (y : Yaml)
    (h : lookupPath y ks = none) : ∃ e, chainGet y ks = .error e := by
  cases hcg : chainGet y ks with
  | error e => exact ⟨e, rfl⟩
  | ok v =>
    rw [(chainGet_ok_iff ks y v).mp hcg] at h
    cases h

/-- Conversely, a raising chain of subscripts means the path lookup
fails. -/
theorem chainGet_error_none (ks : List String) (y : Yaml) (e : PyErr)
    (h : chainGet y ks = .error e) : lookupPath y ks = none := by
  cases hlp : lookupPath y ks with
  | none => rfl
  | some v =>
    rw [(chainGet_ok_iff ks y v).mpr hlp] at h
    cases h

/-- Exhaustive description of the run result in terms of the phases: an
aborted or no-op run leaves the filesystem alone with an empty trace, a
run that crashed during updates carries exactly the update results, and
a completed run carries the rename loop applied after the update
loop. -/
theorem run_cases (cfg : ConfigState) (fs : List Node) :
    ((run cfg fs).2.1 = fs ∧ (run cfg fs).2.2 = []) ∨
      ∃ name label, loadValues cfg = .ok (.str name, .str label) ∧
        (((run cfg fs).2.1 = (updateWalk name label fs).1 ∧
            (run cfg fs).2.2 = (updateWalk name label fs).2.1) ∨
          ((run cfg fs).2.1 = (renameWalk name label (updateWalk name label fs).1).1 ∧
            (run cfg fs).2.2 = (updateWalk name label fs).2.1 ++
              (renameWalk name label (updateWalk name label fs).1).2)) := by
  have hsplit : (∃ e, loadValues cfg = .error e) ∨
      ∃ ny ly, loadValues cfg = .ok (ny, ly) := by
    cases loadValues cfg with
    | error e => exact Or.inl ⟨e, rfl⟩
    | ok p => exact Or.inr ⟨p.1, p.2, rfl⟩
  rcases hsplit with ⟨e, he⟩ | ⟨ny, ly, he⟩
  · rw [run_load_error cfg fs e he]
    exact Or.inl ⟨rfl, rfl⟩
  · have hscansplit : (∃ e2, find_files_with_placeholders fs = .error e2) ∨
        ∃ l, find_files_with_placeholders fs = .ok l := by
      cases find_files_with_placeholders fs with
      | error e2 => exact Or.inl ⟨e2, rfl⟩
      | ok l => exact Or.inr ⟨l, rfl⟩
    rcases hscansplit with ⟨e2, hscan⟩ | ⟨l, hscan⟩
    · rw [run_scan_error cfg fs ny ly e2 he hscan]
      exact Or.inl ⟨rfl, rfl⟩
    · rcases ny with _ | nm | ms
      · rcases ly with _ | lm | ls <;>
          · refine Or.inl ?_
            simp only [run, he, hscan]
            split <;> exact ⟨rfl, rfl⟩
      · rcases ly with _ | lm | ls
        · refine Or.inl ?_
          simp only [run, he, hscan]
          split <;> exact ⟨rfl, rfl⟩
        · have hsplit2 : (∃ e3, (updateWalk nm lm fs).2.2 = some e3) ∨
              (updateWalk nm lm fs).2.2 = none := by
            cases (updateWalk nm lm fs).2.2 with
            | none => exact Or.inr rfl
            | some e3 => exact Or.inl ⟨e3, rfl⟩
          rcases hsplit2 with ⟨e3, herr⟩ | herr
          · rw [run_crash_eq cfg fs nm lm l e3 he hscan herr]
            exact Or.inr ⟨nm, lm, he, Or.inl ⟨rfl, rfl⟩⟩
          · rw [run_ok_eq cfg fs nm lm l he hscan herr]
            exact Or.inr ⟨nm, lm, he, Or.inr ⟨rfl, rfl⟩⟩
        · refine Or.inl ?_
          simp only [run, he, hscan]
          split <;> exact ⟨rfl, rfl⟩
      · rcases ly with _ | lm | ls <;>
          · refine Or.inl ?_
            simp only [run, he, hscan]
            split <;> exact ⟨rfl, rfl⟩

/-- C1, counterexample to the claim as stated.  Configured values
name "aa" and label "bb", file text "a__PROJECT_NAME__a": the run
completes, every read and write succeeds, yet the final text "aaaa"
contains two non-overlapping occurrences of the replacement value "aa"
while the claim demands exactly one (one token occurrence, none
pre-existing): inserting the value next to an equal letter creates an
extra occurrence, so the exact-count clause is false. -/
theorem C1_counterexample :
    (run cexCfg [cexFile]).1 = 0 ∧
    (run cexCfg [cexFile]).2.1.map Node.text = ["aaaa".toList] ∧
    countOccs NAME_TOK cexFile.text = 1 ∧
    countOccs "aa".toList cexFile.text = 0 ∧
    countOccs "aa".toList "aaaa".toList ≠
      countOccs NAME_TOK cexFile.text + countOccs "aa".toList cexFile.text := by
  refine ⟨by decide, by decide, by decide, by decide, by decide⟩

/-- C1 (amended): in a completed run (exit status 0) with configured
string values, every content candidate whose write succeeds ends up
with zero occurrences of either placeholder token in its content,
provided each inserted value is separated from the tokens (the value
neither contains a token, nor is a fragment of one, nor overlaps one at
a boundary).  The exact-count clause of the original claim is dropped:
the counterexample shows it fails even for separated values. -/
theorem C1_amended (cfg : ConfigState) (fs : List Node) (name label : List Char)
    (n : Node)
    (hload : loadValues cfg = .ok (.str name, .str label))
    (h1 : SepFrom name NAME_TOK) (h2 : SepFrom label NAME_TOK)
    (h3 : SepFrom label LABEL_TOK)
    (hmem : n ∈ fs) (hcand : contentCandidate n = true) (hw : n.writeErr = none)
    (hzero : (run cfg fs).1 = 0) :
    ∃ n2 ∈ (run cfg fs).2.1, n2.parent = n.parent ∧
      countOccs NAME_TOK n2.text = 0 ∧ countOccs LABEL_TOK n2.text = 0 := by
  obtain ⟨l, hscan, herr, hrun⟩ := run_zero_inv cfg fs name label hload hzero
  have hup := updateWalk_mem_cand name label fs n hmem hcand hw herr
  obtain ⟨n2, hn2mem, hparent, htext, _, _⟩ :=
    renameWalk_mem_preserve name label (updateWalk name label fs).1
      { n with text := updateContent n.text name label } hup
  refine ⟨n2, ?_, ?_, ?_, ?_⟩
  · rw [hrun]
    exact hn2mem
  · exact hparent
  · rw [htext]
    exact countOccsFZero _ _ (preserve h2 (noSelf h1 n.text))
  · rw [htext]
    exact countOccsFZero _ _ (noSelf h3 (replaceAll NAME_TOK name n.text))

/-- C1, witness: the amended claim applied to the repository values and
a concrete candidate file. -/
theorem C1_witness :
    ∃ n2 ∈ (run demoCfg [fileTokenContent]).2.1,
      n2.parent = fileTokenContent.parent ∧
      countOccs NAME_TOK n2.text = 0 ∧ countOccs LABEL_TOK n2.text = 0 :=
  C1_amended demoCfg [fileTokenContent] demoName demoLabel fileTokenContent rfl
    (by decide) (by decide) (by decide) (by decide) (by decide) (by decide) (by decide)

/-- C2, counterexample to the claim as stated: with the configured name
"X__PROJECT_NAME__" the content rewrite of the token yields a text that
still contains the token, so a second application changes it again and
the two-token replacement is not idempotent for every configured
pair. -/
theorem C2_counterexample :
    updateContent (updateContent NAME_TOK "X__PROJECT_NAME__".toList "L".toList)
        "X__PROJECT_NAME__".toList "L".toList ≠
      updateContent NAME_TOK "X__PROJECT_NAME__".toList "L".toList := by
  decide

/-- C2 (amended): the two-token content rewrite is idempotent for every
content, provided the configured name is separated from the first token
and the configured label is separated from both tokens: the first
application then leaves a text free of both tokens, and a replacement
pass over a token-free text is the identity. -/
theorem C2_amended (c name label : List Char)
    (h1 : SepFrom name NAME_TOK) (h2 : SepFrom label NAME_TOK)
    (h3 : SepFrom label LABEL_TOK) :
    updateContent (updateContent c name label) name label =
      updateContent c name label := by
  have hN2 : ¬ NAME_TOK <:+: updateContent c name label :=
    preserve h2 (noSelf h1 c)
  have hL2 : ¬ LABEL_TOK <:+: updateContent c name label :=
    noSelf h3 (replaceAll NAME_TOK name c)
  show replaceAll LABEL_TOK label
      (replaceAll NAME_TOK name (updateContent c name label)) =
    updateContent c name label
  rw [replaceAllSkip hN2, replaceAllSkip hL2]

/-- C2, witness: idempotence at the repository values on a text holding
both tokens. -/
theorem C2_witness :
    updateContent (updateContent
        "say __PROJECT_NAME__ and __PROJECT_LABEL__".toList demoName demoLabel)
        demoName demoLabel =
      updateContent "say __PROJECT_NAME__ and __PROJECT_LABEL__".toList
        demoName demoLabel :=
  C2_amended "say __PROJECT_NAME__ and __PROJECT_LABEL__".toList demoName demoLabel
    (by decide) (by decide) (by decide)

/-- C3, counterexample to the claim as stated: configuration loading
succeeds, a single candidate file fails its write with an OSError kind
that the except clause does not name, the exception escapes
update_file_content and the process exits with status 1, so a per-file
substitution failure does change the exit status. -/
theorem C3_counterexample :
    loadValues cexCfg = .ok (.str "aa".toList, .str "bb".toList) ∧
    (run cexCfg [fileBadWrite]).1 = 1 := by
  exact ⟨rfl, by decide⟩

/-- C3 (amended): when configuration loading fails the exit status is 1
and no file is modified; when it succeeds with string values, the exit
status is 0 provided every per-file failure is of a caught kind, that
is, no file under the searched directories fails its read and no
content candidate fails its write with an error other than a
UnicodeDecodeError or a PermissionError.  (An uncaught per-file error
kind aborts the process with a non-zero status even though
configuration loading succeeded, which refutes the unrestricted
claim.) -/
theorem C3_amended (cfg : ConfigState) (fs : List Node) :
    (∀ e, loadValues cfg = .error e → run cfg fs = (1, fs, [])) ∧
    (∀ name label, loadValues cfg = .ok (.str name, .str label) →
      (∀ n ∈ fs, underSearchB n = true → n.isFile = true →
        n.readErr ≠ some .other) →
      (∀ n ∈ fs, contentCandidate n = true → n.writeErr ≠ some .other) →
      (run cfg fs).1 = 0) := by
  constructor
  · intro e he
    exact run_load_error cfg fs e he
  · intro name label hload hr hw
    obtain ⟨l, hscan⟩ := scan_ok fs hr
    have herr := updateWalk_no_crash name label fs hw
    rw [run_ok_eq cfg fs name label l hload hscan herr]

/-- C3, witness: a missing configuration aborts with nothing modified,
and a clean run over one candidate exits with status 0. -/
theorem C3_witness :
    run .missing [fileTokenContent] = (1, [fileTokenContent], []) ∧
    (run demoCfg [fileTokenContent]).1 = 0 := by
  constructor
  · exact (C3_amended .missing [fileTokenContent]).1 .notFound rfl
  · exact (C3_amended demoCfg [fileTokenContent]).2 demoName demoLabel rfl
      (by decide) (by decide)

/-- C4, counterexample to the claim as stated: the first of two content
candidates fails its write with an OSError kind outside the except
clause; the run aborts immediately, the second candidate is never
processed and the whole filesystem is left as scanned, so not every
kind of per-file read/write error is caught and skipped. -/
theorem C4_counterexample :
    contentCandidate fileSecond = true ∧
    (run cexCfg [fileBadWrite, fileSecond]).1 = 1 ∧
    (run cexCfg [fileBadWrite, fileSecond]).2.1 = [fileBadWrite, fileSecond] := by
  refine ⟨by decide, by decide, by decide⟩

/-- C4 (amended): a per-file read or write failure of kind
UnicodeDecodeError or PermissionError is caught by update_file_content,
which prints a warning and reports the file as skipped and unchanged;
and the update loop runs to completion whenever no candidate write
fails with any other kind.  Failures of other kinds (for instance a
full disk) escape the except clause and abort the run. -/
theorem C4_amended (name label : List Char) (fs : List Node) (n : Node)
    (e : PerFileErr) :
    (n.readErr = some e → e ≠ .other →
      update_file_content name label n =
        .ok (n, false, [.warnUpdate n.parent n.name])) ∧
    (n.readErr = none → n.writeErr = some e → e ≠ .other →
      updateContent n.text name label ≠ n.text →
      update_file_content name label n =
        .ok (n, false, [.warnUpdate n.parent n.name])) ∧
    ((∀ m ∈ fs, contentCandidate m = true → m.writeErr ≠ some .other) →
      (updateWalk name label fs).2.2 = none) := by
  refine ⟨?_, ?_, updateWalk_no_crash name label fs⟩
  · intro hre hne
    unfold update_file_content
    match e, hne with
    | .unicodeDecode, _ => rw [hre]
    | .permission, _ => rw [hre]
  · intro hre hwe hne hch
    unfold update_file_content
    rw [hre, if_neg hch]
    match e, hne with
    | .unicodeDecode, _ => rw [hwe]
    | .permission, _ => rw [hwe]

/-- C4, witness: a caught decode error is skipped with a warning, and a
loop over one healthy candidate completes. -/
theorem C4_witness :
    update_file_content demoName demoLabel fileBinary =
      .ok (fileBinary, false, [.warnUpdate fileBinary.parent fileBinary.name]) ∧
    (updateWalk demoName demoLabel [fileTokenContent]).2.2 = none := by
  constructor
  · exact (C4_amended demoName demoLabel [fileTokenContent] fileBinary
      .unicodeDecode).1 rfl (by decide)
  · exact (C4_amended demoName demoLabel [fileTokenContent] fileBinary
      .unicodeDecode).2.2 (by decide)

/-- C5: a name candidate whose rename raises is left untouched under
its original name, a warning event is logged in its place, and the
rename loop still processes every candidate before and after it. -/
theorem C5 (name label : List Char) (u v : List Node) (n : Node)
    (hcand : nameCandidate n = true)
    (hfail : n.renameErr = true)
    (hdiff : replaceAll LABEL_TOK label (replaceAll NAME_TOK name n.name) ≠ n.name) :
    (renameWalk name label (u ++ n :: v)).1 =
      (renameWalk name label u).1 ++ n :: (renameWalk name label v).1 ∧
    (renameWalk name label (u ++ n :: v)).2 =
      (renameWalk name label u).2 ++
        .warnRename n.parent n.name
            (replaceAll LABEL_TOK label (replaceAll NAME_TOK name n.name)) ::
          (renameWalk name label v).2 := by
  have hmid := rename_file_err name label n hdiff hfail
  have happ := renameWalk_append name label u (n :: v)
  constructor
  · rw [happ.1]
    congr 1
    simp only [renameWalk, hcand, if_true, hmid]
  · rw [happ.2]
    congr 1
    simp only [renameWalk, hcand, if_true, hmid]
    simp

/-- C5, witness: the failing rename of a concrete candidate leaves it in
place with a warning. -/
theorem C5_witness :
    (renameWalk demoName demoLabel ([] ++ fileRenameFail :: [])).1 =
      (renameWalk demoName demoLabel []).1 ++ fileRenameFail ::
        (renameWalk demoName demoLabel []).1 ∧
    (renameWalk demoName demoLabel ([] ++ fileRenameFail :: [])).2 =
      (renameWalk demoName demoLabel []).2 ++
        Event.warnRename fileRenameFail.parent fileRenameFail.name
            (replaceAll LABEL_TOK demoLabel
              (replaceAll NAME_TOK demoName fileRenameFail.name)) ::
          (renameWalk demoName demoLabel []).2 :=
  C5 demoName demoLabel [] [] fileRenameFail (by decide) rfl (by decide)

/-- get_project_values can only fail with the missing-field error or a
TypeError, never with the file-level errors. -/
theorem gpv_ne_file_errors (y : Yaml) :
    get_project_values y ≠ .error .notFound ∧
      get_project_values y ≠ .error .parseError := by
  unfold get_project_values
  cases h1 : chainGet y ["project", "package", "name"] with
  | error e => cases e <;> simp
  | ok a =>
    cases h2 : chainGet y ["project", "package", "name_managed"] with
    | error e => cases e <;> simp
    | ok b => simp

/-- get_project_values succeeds with a given pair exactly when the two
subscript chains produce its components. -/
theorem gpv_ok_iff (y a b : Yaml) :
    get_project_values y = .ok (a, b) ↔
      chainGet y ["project", "package", "name"] = .ok a ∧
      chainGet y ["project", "package", "name_managed"] = .ok b := by
  unfold get_project_values
  cases h1 : chainGet y ["project", "package", "name"] with
  | error e => cases e <;> simp
  | ok a2 =>
    cases h2 : chainGet y ["project", "package", "name_managed"] with
    | error e => cases e <;> simp
    | ok b2 => simp

/-- get_project_values succeeds carrying exactly the values the path
lookups reach, and it does so exactly when both lookups succeed. -/
theorem gpv_exists_iff (y : Yaml) :
    (∃ a b, get_project_values y = .ok (a, b) ∧
      lookupPath y ["project", "package", "name"] = some a ∧
      lookupPath y ["project", "package", "name_managed"] = some b) ↔
      ((lookupPath y ["project", "package", "name"]).isSome ∧
        (lookupPath y ["project", "package", "name_managed"]).isSome) := by
  constructor
  · rintro ⟨a, b, _, ha, hb⟩
    constructor
    · rw [ha]; rfl
    · rw [hb]; rfl
  · rintro ⟨hs1, hs2⟩
    obtain ⟨a, ha⟩ := Option.isSome_iff_exists.mp hs1
    obtain ⟨b, hb⟩ := Option.isSome_iff_exists.mp hs2
    exact ⟨a, b, (gpv_ok_iff y a b).mpr
      ⟨(chainGet_ok_iff _ y a).mpr ha, (chainGet_ok_iff _ y b).mpr hb⟩, ha, hb⟩

/-- get_project_values fails (with the missing-field error or a
TypeError) exactly when one of the two path lookups fails. -/
theorem gpv_error_iff (y : Yaml) :
    (get_project_values y = .error .missingField ∨
        get_project_values y = .error .typeError) ↔
      ¬((lookupPath y ["project", "package", "name"]).isSome ∧
        (lookupPath y ["project", "package", "name_managed"]).isSome) := by
  constructor
  · rintro (h | h) ⟨hs1, hs2⟩ <;>
      · obtain ⟨a, ha⟩ := Option.isSome_iff_exists.mp hs1
        obtain ⟨b, hb⟩ := Option.isSome_iff_exists.mp hs2
        have hok := (gpv_ok_iff y a b).mpr
          ⟨(chainGet_ok_iff _ y a).mpr ha, (chainGet_ok_iff _ y b).mpr hb⟩
        rw [hok] at h
        simp at h
  · intro hns
    by_cases hs1 : (lookupPath y ["project", "package", "name"]).isSome
    · have hs2 : ¬ (lookupPath y ["project", "package", "name_managed"]).isSome :=
        fun h2 => hns ⟨hs1, h2⟩
      have h2n : lookupPath y ["project", "package", "name_managed"] = none :=
        Option.not_isSome_iff_eq_none.mp hs2
      obtain ⟨e, he2⟩ := chainGet_error_exists _ y h2n
      obtain ⟨a, ha⟩ := Option.isSome_iff_exists.mp hs1
      have hga := (chainGet_ok_iff _ y a).mpr ha
      unfold get_project_values
      rw [hga, he2]
      cases e
      · exact Or.inl rfl
      · exact Or.inr rfl
    · have h1n : lookupPath y ["project", "package", "name"] = none :=
        Option.not_isSome_iff_eq_none.mp hs1
      obtain ⟨e, he1⟩ := chainGet_error_exists _ y h1n
      unfold get_project_values
      rw [he1]
      cases e
      · exact Or.inl rfl
      · exact Or.inr rfl

/-- The name scan only looks at parent, base name and file flag, never
at any content. -/
theorem find_names_text_independent (g : Node → Node)
    (hg : ∀ m, (g m).parent = m.parent ∧ (g m).name = m.name ∧
      (g m).isFile = m.isFile) :
    ∀ gs : List Node, find_files_with_placeholder_names (gs.map g) =
      find_files_with_placeholder_names gs := by
  intro gs
  induction gs with
  | nil => rfl
  | cons m rest ih =>
    have hcand : nameCandidate (g m) = nameCandidate m := by
      unfold nameCandidate underSearchB
      rw [(hg m).1, (hg m).2.1, (hg m).2.2]
    simp only [List.map_cons, find_files_with_placeholder_names, hcand, ih,
      (hg m).1, (hg m).2.1]

/-- C6: in every run the trace splits into the content-update events
followed by the rename events: no rename is attempted until all content
updates have completed, so a file that is both a content and a name
candidate has its content rewritten before it is renamed. -/
theorem C6 (cfg : ConfigState) (fs : List Node) :
    ∃ u r, (run cfg fs).2.2 = u ++ r ∧
      (∀ e ∈ u, Event.isUpd e = true) ∧ (∀ e ∈ r, Event.isRen e = true) := by
  rcases run_cases cfg fs with ⟨_, htr⟩ | ⟨name, label, _, ⟨_, htr⟩ | ⟨_, htr⟩⟩
  · exact ⟨[], [], by rw [htr]; rfl, by simp, by simp⟩
  · exact ⟨(updateWalk name label fs).2.1, [], by rw [htr]; simp,
      updateWalk_events name label fs, by simp⟩
  · exact ⟨(updateWalk name label fs).2.1,
      (renameWalk name label (updateWalk name label fs).1).2, htr,
      updateWalk_events name label fs,
      renameWalk_events name label (updateWalk name label fs).1⟩

/-- C7: a run never modifies any node outside the two searched
subdirectories (they pass through both loops unchanged, in place), every
undecodable file keeps its content byte for byte (it may only be
renamed), and scanning undecodable files does not abort the run: the
scan completes whenever no read fails with an uncaught kind. -/
theorem C7 (cfg : ConfigState) (fs : List Node) :
    (run cfg fs).2.1.filter (fun n => !underSearchB n) =
      fs.filter (fun n => !underSearchB n) ∧
    (∀ n ∈ fs, n.readErr = some .unicodeDecode →
      ∃ n2 ∈ (run cfg fs).2.1, n2.parent = n.parent ∧ n2.text = n.text) ∧
    ((∀ n ∈ fs, underSearchB n = true → n.isFile = true →
        n.readErr ≠ some .other) →
      ∃ l, find_files_with_placeholders fs = .ok l) := by
  have hpures : ∀ n : Node, contentCandidate n = true → (!underSearchB n) = false := by
    intro n hc
    simp only [contentCandidate, Bool.and_eq_true] at hc
    simp [hc.1.1.1]
  have hpuren : ∀ n : Node, nameCandidate n = true → (!underSearchB n) = false := by
    intro n hc
    simp only [nameCandidate, Bool.and_eq_true] at hc
    simp [hc.1.1]
  refine ⟨?_, ?_, scan_ok fs⟩
  · rcases run_cases cfg fs with ⟨hfs, _⟩ | ⟨name, label, _, ⟨hfs, _⟩ | ⟨hfs, _⟩⟩
    · rw [hfs]
    · rw [hfs]
      exact updateWalk_filter name label _ hpures (fun n t => rfl) fs
    · rw [hfs]
      rw [renameWalk_filter name label _ hpuren (fun n s => rfl) _]
      exact updateWalk_filter name label _ hpures (fun n t => rfl) fs
  · intro n hn hbin
    have hnc : contentCandidate n = false := by
      simp [contentCandidate, hbin]
    rcases run_cases cfg fs with ⟨hfs, _⟩ | ⟨name, label, _, ⟨hfs, _⟩ | ⟨hfs, _⟩⟩
    · rw [hfs]
      exact ⟨n, hn, rfl, rfl⟩
    · rw [hfs]
      exact ⟨n, updateWalk_mem_nonCand name label fs n hn hnc, rfl, rfl⟩
    · rw [hfs]
      have h1 := updateWalk_mem_nonCand name label fs n hn hnc
      obtain ⟨n2, hm, hp, ht, _, _⟩ :=
        renameWalk_mem_preserve name label (updateWalk name label fs).1 n h1
      exact ⟨n2, hm, hp, ht⟩

/-- C7, witness: a run over a token-bearing file outside the searched
directories and an undecodable file under them. -/
theorem C7_witness :
    (run demoCfg [fileOutside, fileBinary]).2.1.filter (fun n => !underSearchB n) =
      [fileOutside, fileBinary].filter (fun n => !underSearchB n) ∧
    (∃ n2 ∈ (run demoCfg [fileOutside, fileBinary]).2.1,
      n2.parent = fileBinary.parent ∧ n2.text = fileBinary.text) ∧
    (∃ l, find_files_with_placeholders [fileOutside, fileBinary] = .ok l) :=
  ⟨(C7 demoCfg [fileOutside, fileBinary]).1,
    (C7 demoCfg [fileOutside, fileBinary]).2.1 fileBinary (by decide) rfl,
    (C7 demoCfg [fileOutside, fileBinary]).2.2 (by decide)⟩

/-- C8, counterexample to the claim as stated: an empty configuration
file parses to a null document, whose required keys are certainly
absent, yet the loader fails with an uncaught TypeError rather than the
missing-field error, because subscripting None raises TypeError before
any KeyError can occur. -/
theorem C8_counterexample :
    lookupPath Yaml.null ["project", "package", "name"] = none ∧
    loadValues (.parsed .null) ≠ .error .missingField ∧
    loadValues (.parsed .null) = .error .typeError := by
  refine ⟨rfl, ?_, rfl⟩
  intro h
  simp [loadValues, load_cumulusci_config, get_project_values, chainGet, yamlGet] at h

/-- C8 (amended): the loader fails with the file-not-found error exactly
when the file is absent and with the parse error exactly when it is
malformed; on a parsed document it returns exactly the pair of values
reached by the two key paths when both resolve through nested mappings,
and otherwise fails with the missing-field error or with an uncaught
TypeError — the latter when the first failing subscript hits a
non-mapping value (for example the null document of an empty file), so
a missing key does not always surface as the missing-field error.  The
loader is a pure function of the configuration state. -/
theorem C8_amended (cfg : ConfigState) (y : Yaml) :
    (loadValues cfg = .error .notFound ↔ cfg = .missing) ∧
    (loadValues cfg = .error .parseError ↔ cfg = .malformed) ∧
    ((∃ a b, loadValues (.parsed y) = .ok (a, b) ∧
        lookupPath y ["project", "package", "name"] = some a ∧
        lookupPath y ["project", "package", "name_managed"] = some b) ↔
      ((lookupPath y ["project", "package", "name"]).isSome ∧
        (lookupPath y ["project", "package", "name_managed"]).isSome)) ∧
    ((loadValues (.parsed y) = .error .missingField ∨
        loadValues (.parsed y) = .error .typeError) ↔
      ¬((lookupPath y ["project", "package", "name"]).isSome ∧
        (lookupPath y ["project", "package", "name_managed"]).isSome)) := by
  refine ⟨?_, ?_, gpv_exists_iff y, gpv_error_iff y⟩
  · cases cfg with
    | missing => exact ⟨fun _ => rfl, fun _ => rfl⟩
    | malformed =>
      refine ⟨fun h => ?_, fun h => ConfigState.noConfusion h⟩
      simp [loadValues, load_cumulusci_config] at h
    | parsed y2 =>
      exact ⟨fun h => absurd h (gpv_ne_file_errors y2).1,
        fun h => ConfigState.noConfusion h⟩
  · cases cfg with
    | missing =>
      refine ⟨fun h => ?_, fun h => ConfigState.noConfusion h⟩
      simp [loadValues, load_cumulusci_config] at h
    | malformed => exact ⟨fun _ => rfl, fun _ => rfl⟩
    | parsed y2 =>
      exact ⟨fun h => absurd h (gpv_ne_file_errors y2).2,
        fun h => ConfigState.noConfusion h⟩

/-- C8, witness: the amended success clause evaluated on the repository
configuration document. -/
theorem C8_witness :
    (∃ a b, loadValues (.parsed demoYaml) = .ok (a, b) ∧
        lookupPath demoYaml ["project", "package", "name"] = some a ∧
        lookupPath demoYaml ["project", "package", "name_managed"] = some b) ↔
      ((lookupPath demoYaml ["project", "package", "name"]).isSome ∧
        (lookupPath demoYaml ["project", "package", "name_managed"]).isSome) :=
  (C8_amended (.parsed demoYaml) demoYaml).2.2.1

/-- C9: name-candidate selection never reads file contents — the name
scan gives the same candidate paths however the contents are altered —
and in a completed run a regular file under the searched directories
whose base name holds a token is renamed to the substituted name even
when its content is undecodable, keeping its content byte for byte. -/
theorem C9 (cfg : ConfigState) (fs : List Node) (name label : List Char) (n : Node)
    (hload : loadValues cfg = .ok (.str name, .str label))
    (hmem : n ∈ fs) (hunder : underSearchB n = true) (hfile : n.isFile = true)
    (htokname : hasTokText n.name = true)
    (hbin : n.readErr = some .unicodeDecode)
    (hren : n.renameErr = false)
    (hzero : (run cfg fs).1 = 0) :
    (∀ g : Node → Node, (∀ m, (g m).parent = m.parent ∧ (g m).name = m.name ∧
        (g m).isFile = m.isFile) →
      ∀ gs : List Node, find_files_with_placeholder_names (gs.map g) =
        find_files_with_placeholder_names gs) ∧
    ∃ n2 ∈ (run cfg fs).2.1, n2.parent = n.parent ∧ n2.text = n.text ∧
      n2.name = replaceAll LABEL_TOK label (replaceAll NAME_TOK name n.name) := by
  refine ⟨find_names_text_independent, ?_⟩
  obtain ⟨l, hscan, herr, hrun⟩ := run_zero_inv cfg fs name label hload hzero
  have hnc : contentCandidate n = false := by
    simp [contentCandidate, hbin]
  have h1 := updateWalk_mem_nonCand name label fs n hmem hnc
  have hcand : nameCandidate n = true := by
    simp [nameCandidate, hunder, hfile, htokname]
  have h2 := renameWalk_mem_renamed name label (updateWalk name label fs).1 n h1
    hcand hren
  refine ⟨{ n with
    name := replaceAll LABEL_TOK label (replaceAll NAME_TOK name n.name) },
    ?_, rfl, rfl, rfl⟩
  rw [hrun]
  exact h2

/-- C9, witness: the undecodable token-named file is renamed with its
content intact in a concrete completed run. -/
theorem C9_witness :
    ∃ n2 ∈ (run demoCfg [fileBinary]).2.1, n2.parent = fileBinary.parent ∧
      n2.text = fileBinary.text ∧
      n2.name = replaceAll LABEL_TOK demoLabel
        (replaceAll NAME_TOK demoName fileBinary.name) :=
  (C9 demoCfg [fileBinary] demoName demoLabel fileBinary rfl (by decide) rfl rfl
    (by decide) rfl rfl (by decide)).2

/-- C10: only regular files are ever candidates: every directory node,
even one whose name holds a placeholder token, passes through a run
unchanged in place (both scanners test is_file before selecting). -/
theorem C10 (cfg : ConfigState) (fs : List Node) :
    (run cfg fs).2.1.filter (fun n => !n.isFile) =
      fs.filter (fun n => !n.isFile) := by
  have hpc : ∀ n : Node, contentCandidate n = true → (!n.isFile) = false := by
    intro n hc
    simp only [contentCandidate, Bool.and_eq_true] at hc
    simp [hc.1.1.2]
  have hpn : ∀ n : Node, nameCandidate n = true → (!n.isFile) = false := by
    intro n hc
    simp only [nameCandidate, Bool.and_eq_true] at hc
    simp [hc.1.2]
  rcases run_cases cfg fs with ⟨hfs, _⟩ | ⟨name, label, _, ⟨hfs, _⟩ | ⟨hfs, _⟩⟩
  · rw [hfs]
  · rw [hfs]
    exact updateWalk_filter name label _ hpc (fun n t => rfl) fs
  · rw [hfs]
    rw [renameWalk_filter name label _ hpn (fun n s => rfl) _]
    exact updateWalk_filter name label _ hpc (fun n t => rfl) fs

/-- C6, witness: the phase split of the trace of a concrete run. -/
theorem C6_witness :
    ∃ u r, (run demoCfg [fileTokenContent, fileRenameFail]).2.2 = u ++ r ∧
      (∀ e ∈ u, Event.isUpd e = true) ∧ (∀ e ∈ r, Event.isRen e = true) :=
  C6 demoCfg [fileTokenContent, fileRenameFail]

/-- C10, witness: a token-named directory survives a concrete run in
place. -/
theorem C10_witness :
    (run demoCfg [dirToken, fileTokenContent]).2.1.filter (fun n => !n.isFile) =
      [dirToken, fileTokenContent].filter (fun n => !n.isFile) :=
  C10 demoCfg [dirToken, fileTokenContent]

end PlaceholderTool
